import Mathlib

/-!
Verification development for the per-tenant sandboxed execution-environment
manager (Docker-based IDE backend).  The TypeScript sources are shallowly
embedded below: pure string-processing functions become Lean functions on
`String`/`List Char`, the stateful `DockerManager` bookkeeping becomes explicit
state passing over association lists, and fallible async methods return
`Except`.  JavaScript semantics that matter here (`String.prototype.replace`
with a string pattern replaces the first occurrence, `Set` deduplicates keeping
first insertion order, object assignment keeps one entry per key, regex
character-class filters, `JSON.parse`/`JSON.stringify(v, null, 2)`) are encoded
explicitly.
-/

namespace IDE

/-! ### Generic JavaScript string primitives -/

/-- `s.endsWith post` of JavaScript. -/
def jsEndsWith (s post : String) : Bool :=
  post.data.isSuffixOf s.data

/-- Split a character list at the first occurrence of `pat`: returns the part
before the match and the part after it.  `none` when `pat` does not occur. -/
def firstOccSplit (pat : List Char) : List Char → Option (List Char × List Char)
  | [] => if pat.isEmpty then some ([], []) else none
  | c :: rest =>
    if pat.isPrefixOf (c :: rest) then
      some ([], (c :: rest).drop pat.length)
    else
      match firstOccSplit pat rest with
      | some (pre, suf) => some (c :: pre, suf)
      | none => none

/-- `s.replace(pat, rep)` of JavaScript with a *string* pattern: replaces only
the first occurrence (the replacement strings in this code contain no `$`
patterns). -/
def jsReplaceFirst (s pat rep : String) : String :=
  match firstOccSplit pat.data s.data with
  | some (pre, suf) => ⟨pre ++ rep.data ++ suf⟩
  | none => s

/-- `s.includes(sub)` of JavaScript. -/
def jsIncludes (s sub : String) : Bool :=
  (firstOccSplit sub.data s.data).isSome

/-! ### Path repair (`fixIncompleteExtension`)

From `DockerManager.fixIncompleteExtension` (the identical copy also appears in
the enhanced `index.ts`): an ordered table from truncated extension fragments
to canonical extensions, scanned in insertion order; the first entry whose
fragment is a suffix of the path (and whose canonical form is not) rewrites the
path via `String.replace`, i.e. at the fragment's *first* occurrence. -/

def extensionMap : List (String × String) :=
  [(".j", ".js"), (".t", ".ts"), (".p", ".py"), (".c", ".cpp"), (".h", ".hpp"),
   (".ja", ".java"), (".ph", ".php"), (".r", ".rb"), (".g", ".go"),
   (".ru", ".rust"), (".sw", ".swift"), (".k", ".kt"), (".s", ".sh"),
   (".ht", ".html"), (".cs", ".css"), (".jso", ".json"), (".x", ".xml"),
   (".m", ".md"), (".y", ".yml"), (".do", ".dockerfile")]

/-- The `for (const [incomplete, complete] of Object.entries(extensionMap))`
loop body. -/
def fixExtGo (filePath : String) : List (String × String) → String
  | [] => filePath
  | (incomplete, complete) :: rest =>
    if jsEndsWith filePath incomplete && !jsEndsWith filePath complete then
      jsReplaceFirst filePath incomplete complete
    else
      fixExtGo filePath rest

def fixIncompleteExtension (filePath : String) : String :=
  fixExtGo filePath extensionMap

/-- The canonical extensions of the table (its value column). -/
def canonicalExts : List String := extensionMap.map Prod.snd

end IDE

/-! ### Character-class filters of the sanitizers

Each JavaScript `replace(/[...]/g, '')` is a filter over the string's
characters; the class bounds are transcribed from the regex literals. -/

namespace IDE

/-- Step 1 whitelist of `DockerManager.ultraCleanContent`:
`[^\x20-\x7E\x09\x0A]` is removed, i.e. keep printable ASCII, TAB, LF. -/
def keepSafeAscii (c : Char) : Bool :=
  (0x20 ≤ c.toNat && c.toNat ≤ 0x7E) || c.toNat = 0x09 || c.toNat = 0x0A

/-- Step 1 whitelist of the enhanced `index.ts` `ultraCleanContent`:
`[^\x20-\x7E\x09\x0A\x0D]` — same but CR is also kept (normalized later). -/
def keepSafeAsciiIndex (c : Char) : Bool :=
  keepSafeAscii c || c.toNat = 0x0D

/-- Step 2 removal class of both `ultraCleanContent` variants:
`[\x00-\x08\x0B\x0C\x0E-\x1F\x7F-\xFF]`. -/
def ctlStep2 (c : Char) : Bool :=
  c.toNat ≤ 0x08 || c.toNat = 0x0B || c.toNat = 0x0C ||
  (0x0E ≤ c.toNat && c.toNat ≤ 0x1F) || (0x7F ≤ c.toNat && c.toNat ≤ 0xFF)

/-- First removal class of the legacy `writeFileToContainer` sanitizer:
`[\x00-\x08\x0B-\x0C\x0E-\x1F\x7F]`. -/
def ctlLegacy1 (c : Char) : Bool :=
  c.toNat ≤ 0x08 || c.toNat = 0x0B || c.toNat = 0x0C ||
  (0x0E ≤ c.toNat && c.toNat ≤ 0x1F) || c.toNat = 0x7F

/-- Second removal class of the legacy sanitizer:
`[\u0000-\u0008\u000B\u000C\u000E-\u001F\u007F-\u009F]`. -/
def ctlLegacy2 (c : Char) : Bool :=
  c.toNat ≤ 0x08 || c.toNat = 0x0B || c.toNat = 0x0C ||
  (0x0E ≤ c.toNat && c.toNat ≤ 0x1F) || (0x7F ≤ c.toNat && c.toNat ≤ 0x9F)

/-- `replace(/\r\n/g, '\n')`: global, non-overlapping, left to right. -/
def crlfToLf : List Char → List Char
  | [] => []
  | '\r' :: '\n' :: rest => '\n' :: crlfToLf rest
  | c :: rest => c :: crlfToLf rest

/-- `replace(/\r\n/g, '\n').replace(/\r/g, '\n')` over a string. -/
def normalizeNewlines (l : List Char) : List Char :=
  (crlfToLf l).map fun c => if c = '\r' then '\n' else c

/-- Steps 1–3 of `DockerManager.ultraCleanContent` (part of the enhanced
`DockerManager`): ASCII whitelist, control removal, newline normalization. -/
def stripPhase (content : String) : String :=
  ⟨normalizeNewlines (((content.data.filter keepSafeAscii).filter
      fun c => !ctlStep2 c))⟩

/-- Steps 1–3 of the enhanced `index.ts` `ultraCleanContent` (CR survives the
whitelist and is normalized in step 3). -/
def stripPhaseIndex (content : String) : String :=
  ⟨normalizeNewlines (((content.data.filter keepSafeAsciiIndex).filter
      fun c => !ctlStep2 c))⟩

/-- The inline sanitization of the legacy `writeFileToContainer`
(`src/server/src/Docker/DockerManager.ts`, lines 146–165): two control-class
removals, then newline normalization; the final UTF-8 re-encode round trip is
the identity on the valid strings modelled here. -/
def sanitizeWriteLegacy (content : String) : String :=
  ⟨normalizeNewlines (((content.data.filter fun c => !ctlLegacy1 c).filter
      fun c => !ctlLegacy2 c))⟩

end IDE

/-! ### JSON model (`JSON.parse` / `JSON.stringify(v, null, 2)`)

The manifest branch of `ultraCleanContent` round-trips content through
JavaScript's JSON facilities.  The grammar below is RFC 8259 as implemented by
`JSON.parse` (whitespace tolerant, strict otherwise; duplicate object keys:
last value wins, first position kept).  Numbers are kept as their source
lexeme: no claim below depends on numeric re-formatting, and every concrete
input evaluated by a theorem is number-free.  Lone UTF-16 surrogates from
`\uXXXX` escapes (unrepresentable in Lean's `Char`) are approximated by
U+FFFD; every concrete input below is surrogate-free. -/

namespace IDE

inductive JsonValue where
  | null
  | bool (b : Bool)
  | num (lexeme : String)
  | str (s : String)
  | arr (elems : List JsonValue)
  | obj (fields : List (String × JsonValue))

/-- JavaScript object assignment `o[k] = v`: one entry per key, first insertion
position kept, later assignment overwrites the value. -/
def objAssign {α : Type} (l : List (String × α)) (k : String) (v : α) :
    List (String × α) :=
  if l.any (fun p => p.1 = k) then
    l.map fun p => if p.1 = k then (k, v) else p
  else l ++ [(k, v)]

def lbrace : Char := Char.ofNat 0x7B

def rbrace : Char := Char.ofNat 0x7D

/-- JSON insignificant whitespace. -/
def isJsonWs (c : Char) : Bool :=
  c = ' ' || c = '\t' || c = '\n' || c = '\r'

def skipWs (l : List Char) : List Char :=
  l.dropWhile isJsonWs

def isDigitChar (c : Char) : Bool :=
  48 ≤ c.toNat && c.toNat ≤ 57

def hexVal (c : Char) : Option Nat :=
  if 48 ≤ c.toNat && c.toNat ≤ 57 then some (c.toNat - 48)
  else if 97 ≤ c.toNat && c.toNat ≤ 102 then some (c.toNat - 87)
  else if 65 ≤ c.toNat && c.toNat ≤ 70 then some (c.toNat - 55)
  else none

def parseHex4 : List Char → Option (Nat × List Char)
  | a :: b :: c :: d :: rest =>
    match hexVal a, hexVal b, hexVal c, hexVal d with
    | some x, some y, some z, some w => some (((x * 16 + y) * 16 + z) * 16 + w, rest)
    | _, _, _, _ => none
  | _ => none

/-- Body of a JSON string literal, after the opening quote. -/
def parseStringBody : Nat → List Char → List Char → Option (String × List Char)
  | 0, _, _ => none
  | fuel + 1, acc, input =>
    match input with
    | [] => none
    | c :: rest =>
      if c = '"' then some (⟨acc.reverse⟩, rest)
      else if c = '\\' then
        match rest with
        | [] => none
        | e :: rest2 =>
          if e = '"' then parseStringBody fuel ('"' :: acc) rest2
          else if e = '\\' then parseStringBody fuel ('\\' :: acc) rest2
          else if e = '/' then parseStringBody fuel ('/' :: acc) rest2
          else if e = 'b' then parseStringBody fuel (Char.ofNat 8 :: acc) rest2
          else if e = 'f' then parseStringBody fuel (Char.ofNat 12 :: acc) rest2
          else if e = 'n' then parseStringBody fuel ('\n' :: acc) rest2
          else if e = 'r' then parseStringBody fuel ('\r' :: acc) rest2
          else if e = 't' then parseStringBody fuel ('\t' :: acc) rest2
          else if e = 'u' then
            match parseHex4 rest2 with
            | none => none
            | some (n, rest3) =>
              if 0xD800 ≤ n && n ≤ 0xDBFF then
                match rest3 with
                | u :: v :: rest4 =>
                  if u = '\\' && v = 'u' then
                    match parseHex4 rest4 with
                    | some (m, rest5) =>
                      if 0xDC00 ≤ m && m ≤ 0xDFFF then
                        parseStringBody fuel
                          (Char.ofNat (0x10000 + (n - 0xD800) * 0x400 + (m - 0xDC00)) :: acc)
                          rest5
                      else parseStringBody fuel (Char.ofNat 0xFFFD :: acc) rest3
                    | none => none
                  else parseStringBody fuel (Char.ofNat 0xFFFD :: acc) rest3
                | _ => parseStringBody fuel (Char.ofNat 0xFFFD :: acc) rest3
              else if 0xDC00 ≤ n && n ≤ 0xDFFF then
                parseStringBody fuel (Char.ofNat 0xFFFD :: acc) rest3
              else
                parseStringBody fuel (Char.ofNat n :: acc) rest3
          else none
      else if c.toNat < 0x20 then none
      else parseStringBody fuel (c :: acc) rest

/-- Longest digit span. -/
def spanDigits (l : List Char) : List Char × List Char :=
  (l.takeWhile isDigitChar, l.dropWhile isDigitChar)

/-- JSON number lexeme: `-? (0 | [1-9][0-9]*) (. [0-9]+)? ([eE][+-]?[0-9]+)?`. -/
def parseNumberLex (input : List Char) : Option (List Char × List Char) :=
  let (sign, afterSign) :=
    match input with
    | '-' :: rest => (['-'], rest)
    | _ => ([], input)
  match afterSign with
  | [] => none
  | c :: rest =>
    if c = '0' then some (sign ++ ['0'], rest)
    else if isDigitChar c then
      let (ds, rest2) := spanDigits rest
      some (sign ++ c :: ds, rest2)
    else none

/-- Optional fraction part continuing a number lexeme. -/
def parseFrac (input : List Char) : Option (List Char × List Char) :=
  match input with
  | '.' :: rest =>
    let (ds, rest2) := spanDigits rest
    if ds.isEmpty then none else some ('.' :: ds, rest2)
  | _ => some ([], input)

/-- Optional exponent part continuing a number lexeme. -/
def parseExp (input : List Char) : Option (List Char × List Char) :=
  match input with
  | c :: rest =>
    if c = 'e' || c = 'E' then
      let (sgn, rest2) :=
        match rest with
        | s :: r2 => if s = '+' || s = '-' then ([s], r2) else ([], rest)
        | [] => ([], rest)
      let (ds, rest3) := spanDigits rest2
      if ds.isEmpty then none else some (c :: sgn ++ ds, rest3)
    else some ([], input)
  | [] => some ([], input)

mutual

def parseValue : Nat → List Char → Option (JsonValue × List Char)
  | 0, _ => none
  | fuel + 1, input =>
    let input := skipWs input
    match input with
    | [] => none
    | c :: rest =>
      if c = lbrace then
        parseObjTail fuel rest []
      else if c = '[' then
        parseArrTail fuel rest []
      else if c = '"' then
        match parseStringBody (rest.length + 1) [] rest with
        | some (s, rest2) => some (.str s, rest2)
        | none => none
      else if c = 't' then
        match rest with
        | 'r' :: 'u' :: 'e' :: rest2 => some (.bool true, rest2)
        | _ => none
      else if c = 'f' then
        match rest with
        | 'a' :: 'l' :: 's' :: 'e' :: rest2 => some (.bool false, rest2)
        | _ => none
      else if c = 'n' then
        match rest with
        | 'u' :: 'l' :: 'l' :: rest2 => some (.null, rest2)
        | _ => none
      else
        match parseNumberLex input with
        | none => none
        | some (intPart, rest2) =>
          match parseFrac rest2 with
          | none => none
          | some (fracPart, rest3) =>
            match parseExp rest3 with
            | none => none
            | some (expPart, rest4) =>
              some (.num ⟨intPart ++ fracPart ++ expPart⟩, rest4)

/-- Elements after `[`, accumulating in order. -/
def parseArrTail : Nat → List Char → List JsonValue → Option (JsonValue × List Char)
  | 0, _, _ => none
  | fuel + 1, input, acc =>
    let input := skipWs input
    match input with
    | c :: rest =>
      if c = ']' && acc.isEmpty then some (.arr [], rest)
      else
        match parseValue fuel input with
        | none => none
        | some (v, rest2) =>
          let rest3 := skipWs rest2
          match rest3 with
          | d :: rest4 =>
            if d = ',' then parseArrTail fuel rest4 (acc ++ [v])
            else if d = ']' then some (.arr (acc ++ [v]), rest4)
            else none
          | [] => none
    | [] => none

/-- Fields after the opening brace; duplicate keys behave like JS object
assignment. -/
def parseObjTail : Nat → List Char → List (String × JsonValue) →
    Option (JsonValue × List Char)
  | 0, _, _ => none
  | fuel + 1, input, acc =>
    let input := skipWs input
    match input with
    | c :: rest =>
      if c = rbrace && acc.isEmpty then some (.obj [], rest)
      else if c = '"' then
        match parseStringBody (rest.length + 1) [] rest with
        | none => none
        | some (k, rest2) =>
          match skipWs rest2 with
          | ':' :: rest3 =>
            match parseValue fuel rest3 with
            | none => none
            | some (v, rest4) =>
              let acc2 := objAssign acc k v
              match skipWs rest4 with
              | d :: rest5 =>
                if d = ',' then parseObjTail fuel rest5 acc2
                else if d = rbrace then some (.obj acc2, rest5)
                else none
              | [] => none
          | _ => none
      else none
    | [] => none

end

/-- `JSON.parse(s)`: parse one value surrounded by optional whitespace;
anything trailing is an error. -/
def jsonParse (s : String) : Option JsonValue :=
  match parseValue (s.data.length * 2 + 8) s.data with
  | some (v, rest) => if (skipWs rest).isEmpty then some v else none
  | none => none

end IDE

namespace IDE

/-- Lowercase hex digit, as emitted by `JSON.stringify` escapes. -/
def hexDigitLower (n : Nat) : Char :=
  if n < 10 then Char.ofNat (48 + n) else Char.ofNat (87 + n)

/-- `JSON.stringify` escaping of one string character: `"` and `\` are
escaped, control characters below 0x20 get short escapes or `\u00xx`;
everything else — including all characters at or above 0x7F — is emitted
verbatim. -/
def escapeJsonChar (c : Char) : List Char :=
  if c = '"' then ['\\', '"']
  else if c = '\\' then ['\\', '\\']
  else if c.toNat = 8 then ['\\', 'b']
  else if c.toNat = 12 then ['\\', 'f']
  else if c = '\n' then ['\\', 'n']
  else if c = '\r' then ['\\', 'r']
  else if c = '\t' then ['\\', 't']
  else if c.toNat < 0x20 then
    ['\\', 'u', '0', '0', hexDigitLower (c.toNat / 16), hexDigitLower (c.toNat % 16)]
  else [c]

/-- A double-quoted, escaped JSON string literal. -/
def quoteJsonString (s : String) : String :=
  ⟨'"' :: (s.data.map escapeJsonChar).flatten ++ ['"']⟩

/-- `2 * d` spaces: the indentation of nesting depth `d` under
`JSON.stringify(v, null, 2)`. -/
def jsonIndent (d : Nat) : String :=
  ⟨List.replicate (2 * d) ' '⟩

mutual

/-- `JSON.stringify(v, null, 2)` at nesting depth `d`.  Number lexemes are
emitted as parsed (exact for the number-free values all theorems evaluate). -/
def stringifyAt (d : Nat) : JsonValue → String
  | .null => "null"
  | .bool true => "true"
  | .bool false => "false"
  | .num lexeme => lexeme
  | .str s => quoteJsonString s
  | .arr [] => "[]"
  | .arr (v :: vs) =>
    "[\n" ++
      String.intercalate ",\n"
        ((stringifyList (d + 1) (v :: vs)).map fun line => jsonIndent (d + 1) ++ line) ++
      "\n" ++ jsonIndent d ++ "]"
  | .obj [] => "\x7b\x7d"
  | .obj (f :: fs) =>
    "\x7b\n" ++
      String.intercalate ",\n"
        ((stringifyFields (d + 1) (f :: fs)).map fun line => jsonIndent (d + 1) ++ line) ++
      "\n" ++ jsonIndent d ++ "\x7d"

def stringifyList (d : Nat) : List JsonValue → List String
  | [] => []
  | v :: vs => stringifyAt d v :: stringifyList d vs

def stringifyFields (d : Nat) : List (String × JsonValue) → List String
  | [] => []
  | (k, v) :: fs => (quoteJsonString k ++ ": " ++ stringifyAt d v) :: stringifyFields d fs

end

/-- `JSON.stringify(v, null, 2)`. -/
def jsonStringify2 (v : JsonValue) : String :=
  stringifyAt 0 v

/-- The object literal substituted by `ultraCleanContent` when an invalid
manifest is detected for a `package.json` path (transcribed field for field,
in source order). -/
def defaultPackageJson : JsonValue :=
  .obj
    [("name", .str "test"),
     ("version", .str "1.0.0"),
     ("main", .str "index.js"),
     ("type", .str "module"),
     ("scripts", .obj [("test", .str "echo \"Error: no test specified\" && exit 1")]),
     ("keywords", .arr []),
     ("author", .str ""),
     ("license", .str "ISC"),
     ("description", .str "")]

/-- `JSON.stringify(defaultPackageJson, null, 2)` — the exact replacement text. -/
def defaultPackageJsonStr : String :=
  jsonStringify2 defaultPackageJson

/-- The guard of step 4 of both `ultraCleanContent` variants:
`filePath.includes('.json') || filePath.includes('package')`. -/
def isManifestPath (filePath : String) : Bool :=
  jsIncludes filePath ".json" || jsIncludes filePath "package"

/-- Step 4 of both `ultraCleanContent` variants: for paths containing `.json`
or `package`, parse strictly, re-serialize canonically on success, substitute a
safe default on failure (`package.json` paths get the full default manifest,
other manifest-like paths get the empty object). -/
def jsonBranch (cleaned filePath : String) : String :=
  if isManifestPath filePath then
    match jsonParse cleaned with
    | some parsed => jsonStringify2 parsed
    | none =>
      if jsIncludes filePath "package.json" then defaultPackageJsonStr
      else "\x7b\x7d"
  else cleaned

/-- `DockerManager.ultraCleanContent(content, filePath)` of the enhanced
`DockerManager`: empty content short-circuits to the empty string, then
steps 1–3 strip/normalize and step 4 is the manifest branch. -/
def ultraCleanContent (content : String) (filePath : String) : String :=
  if content = "" then ""
  else jsonBranch (stripPhase content) filePath

/-- `ultraCleanContent(content, filePath)` of the enhanced `index.ts` (same
structure; its whitelist also keeps CR, normalized in step 3). -/
def ultraCleanContentIndex (content : String) (filePath : String) : String :=
  if content = "" then ""
  else jsonBranch (stripPhaseIndex content) filePath

end IDE

namespace IDE

/-! ### Workspace creation (`createUserContainer`)

`createUserContainer(userId)` resolves the host-bound storage directory as
`path.resolve(process.cwd(), 'user')` and names the container
`` `user-${userId}` ``; the bind is `` `${hostPath}:/workspace:rw` ``. -/

/-- The host path bound into the session's workspace.  `process.cwd()` is a
parameter; the session id is a parameter of the source function and appears
here so the dependence (in fact, the absence of one) is checkable. -/
def hostPath (cwd : String) (userId : String) : String :=
  let _ := userId
  cwd ++ "/user"

/-- The name given to the session's container. -/
def containerName (userId : String) : String :=
  "user-" ++ userId

/-- The `Binds` entry of the container's host config. -/
def bindSpec (cwd : String) (userId : String) : String :=
  hostPath cwd userId ++ ":/workspace:rw"

/-! ### File write (`writeFileToContainer`) -/

/-- `s.startsWith(pre)` of JavaScript. -/
def jsStartsWith (s pre : String) : Bool :=
  pre.data.isPrefixOf s.data

/-- Leading-slash strip used by both write variants:
`filePath.startsWith('/') ? filePath.slice(1) : filePath`. -/
def stripLeadingSlash (filePath : String) : String :=
  if jsStartsWith filePath "/" then filePath.drop 1 else filePath

/-- `writeFileToContainer` of the enhanced `DockerManager`: looks up the
session's container (rejecting when absent), repairs the path, cleans the
content, strips a leading slash, and packs exactly that (path, payload) pair
into the injected archive.  The container registry is the explicit first
argument; a successful write returns the archived entry. -/
def writeFileToContainer (containers : List (String × Nat))
    (userId filePath content : String) : Except String (String × String) :=
  match containers.lookup userId with
  | none => .error "Container not found"
  | some _ =>
    let fixedPath := fixIncompleteExtension filePath
    let cleanContent := ultraCleanContent content fixedPath
    let cleanFilePath := stripLeadingSlash fixedPath
    .ok (cleanFilePath, cleanContent)

/-- The legacy `writeFileToContainer` (`src/server/src/Docker/DockerManager.ts`):
when the session has no container it logs and returns — resolving successfully
with nothing written (`.ok none`); otherwise it writes its inline-sanitized
content at the slash-stripped path (no path repair in this variant). -/
def writeFileToContainerLegacy (containers : List (String × Nat))
    (userId filePath content : String) : Except String (Option (String × String)) :=
  match containers.lookup userId with
  | none => .ok none
  | some _ =>
    let sanitizedContent := sanitizeWriteLegacy content
    let cleanFilePath := stripLeadingSlash filePath
    .ok (some (cleanFilePath, sanitizedContent))

/-- The content that reaches the sandbox for a `file:change` event in the
enhanced pipeline: the socket handler repairs the path and cleans with the
`index.ts` `ultraCleanContent`, then `writeFileToContainer` repairs its path
argument again and cleans again with the `DockerManager` variant. -/
def fileChangeWrittenContent (path content : String) : String :=
  let finalPath := fixIncompleteExtension path
  let cleanContent := ultraCleanContentIndex content finalPath
  let fixedPath := fixIncompleteExtension finalPath
  ultraCleanContent cleanContent fixedPath

/-! ### File read (`readFileFromContainer`, enhanced variant) -/

/-- Chunk classification of the read stream: a chunk is routed to the error
accumulator iff it contains one of the two failure phrases. -/
def readChunkIsError (chunk : String) : Bool :=
  jsIncludes chunk "No such file or directory" || jsIncludes chunk "cannot access"

/-- One stream `data` event: the chunk is appended to the error accumulator
when it carries a failure phrase, to the output accumulator otherwise. -/
def readFoldStep (acc : String × String) (data : String) : String × String :=
  if readChunkIsError data then (acc.1, acc.2 ++ data)
  else (acc.1 ++ data, acc.2)

/-- The stream's `data` handler, folded over all chunks in arrival order:
returns (output, error) accumulators. -/
def readFold (chunks : List String) : String × String :=
  chunks.foldl readFoldStep ("", "")

/-- `[\x00-\x1f\x7f-\x9f]`, removed from the path before the `cat`. -/
def ctlReadPath (c : Char) : Bool :=
  c.toNat ≤ 0x1F || (0x7F ≤ c.toNat && c.toNat ≤ 0x9F)

/-- The repaired, slash-stripped, control-filtered path the read executes
`cat` against (enhanced variant: same `fixIncompleteExtension` repair as the
write path). -/
def readCleanPath (filePath : String) : String :=
  let fixedPath := fixIncompleteExtension filePath
  ⟨(stripLeadingSlash fixedPath).data.filter fun c => !ctlReadPath c⟩

def isAnsiMid (c : Char) : Bool :=
  isDigitChar c || c = ';'

def isAsciiLetter (c : Char) : Bool :=
  (65 ≤ c.toNat && c.toNat ≤ 90) || (97 ≤ c.toNat && c.toNat ≤ 122)

/-- Try to match `\x1b\[[0-9;]*[a-zA-Z]` at the head; on success return the
remainder.  The two inner classes are disjoint, so greedy matching is exact. -/
def ansiMatch (l : List Char) : Option (List Char) :=
  match l with
  | '\x1b' :: '[' :: rest =>
    match rest.dropWhile isAnsiMid with
    | c :: rest2 => if isAsciiLetter c then some rest2 else none
    | [] => none
  | _ => none

def stripAnsiGo : Nat → List Char → List Char
  | 0, l => l
  | _ + 1, [] => []
  | fuel + 1, c :: rest =>
    match ansiMatch (c :: rest) with
    | some rest2 => stripAnsiGo fuel rest2
    | none => c :: stripAnsiGo fuel rest

/-- `replace(/\x1b\[[0-9;]*[a-zA-Z]/g, '')`. -/
def stripAnsi (s : String) : String :=
  ⟨stripAnsiGo s.data.length s.data⟩

/-- `readFileFromContainer` of the enhanced `DockerManager`, abstracted over
the runtime's observable behaviour (exit code of the `cat` exec and the list of
streamed chunks): apply path repair, partition chunks into output/error by
phrase inspection, and on `ExitCode === 0 && !error` resolve with the
ANSI-stripped, cleaned output, otherwise reject with a not-found error. -/
def readFileFromContainer (filePath : String) (exitCode : Int)
    (chunks : List String) : Except String String :=
  let cleanPath := readCleanPath filePath
  let (output, error) := readFold chunks
  if exitCode = 0 && error = "" then
    .ok (ultraCleanContent (stripAnsi output) filePath)
  else
    .error ("File not found: " ++ cleanPath)

/-! ### Session teardown (`cleanupContainer`) -/

/-- The in-memory bookkeeping of `DockerManager`: the two session-keyed maps.
Container and shell handles are abstracted to numeric ids. -/
structure DMState where
  userContainers : List (String × Nat)
  userShells : List (String × Nat)

/-- Outcome of one remote Docker call (`container.stop()` /
`container.remove()`): success, or rejection carrying an optional HTTP status
code. -/
inductive DockerCallResult where
  | ok
  | err (statusCode : Option Nat)

/-- `Map.delete(key)`. -/
def eraseKey {α : Type} (l : List (String × α)) (k : String) :
    List (String × α) :=
  l.filter fun p => p.1 ≠ k

/-- `cleanupContainer(userId)`: end the shell if present (its own failure
swallowed) and delete its map entry; if a container is registered, try
`stop()` then `remove()` and delete the map entry — in the catch as well, after
the (non-409) log, so bookkeeping removal is unconditional.  The whole method
is modelled in `Except` to make "never rejects" a provable statement. -/
def cleanupContainer (st : DMState) (userId : String) (shellEndThrows : Bool)
    (stopCall removeCall : DockerCallResult) : Except String DMState :=
  let st1 :=
    match st.userShells.lookup userId with
    | some _ =>
      -- try { shell.end() } catch { /* silently handle */ } — `shellEndThrows`
      -- has no observable effect; then userShells.delete(userId)
      let _ := shellEndThrows
      { st with userShells := eraseKey st.userShells userId }
    | none => st
  match st1.userContainers.lookup userId with
  | none => .ok st1
  | some _ =>
    match stopCall, removeCall with
    | .ok, .ok =>
      .ok { st1 with userContainers := eraseKey st1.userContainers userId }
    | _, _ =>
      -- catch: console.error unless statusCode === 409, then delete anyway
      .ok { st1 with userContainers := eraseKey st1.userContainers userId }

/-! ### Tree building (`toTree`) -/

/-- One value of the file-tree object: `null` for a file, the (always empty)
nested map for a directory. -/
inductive TreeNode where
  | file
  | dir
deriving DecidableEq, Repr

/-- `Array.from(new Set(items))`: deduplicate keeping first occurrences in
order. -/
def dedupFirstAux : List String → List String → List String
  | _, [] => []
  | seen, x :: xs =>
    if x ∈ seen then dedupFirstAux seen xs
    else x :: dedupFirstAux (x :: seen) xs

def dedupFirst (l : List String) : List String :=
  dedupFirstAux [] l

/-- `splitChar sep` over the character list: the groups between separator
occurrences, in order; the empty list yields one empty group, like JavaScript's
`''.split(sep)`. -/
def splitChar (sep : Char) : List Char → List (List Char)
  | [] => [[]]
  | c :: rest =>
    match splitChar sep rest with
    | [] => [[]]
    | grp :: groups =>
      if c = sep then [] :: grp :: groups else (c :: grp) :: groups

/-- `s.split(sep)` of JavaScript for a one-character separator string. -/
def jsSplitChar (s : String) (sep : Char) : List String :=
  (splitChar sep s.data).map fun grp => ⟨grp⟩

/-- One iteration of the `toTree` loop: skip empty items and items missing a
name or kind (`!name || !type`), otherwise assign
`tree[name] = type === 'd' ? {} : null`. -/
def toTreeStep (tree : List (String × TreeNode)) (item : String) :
    List (String × TreeNode) :=
  if item = "" then tree
  else
    let parts := jsSplitChar item '|'
    let name := parts.getD 0 ""
    let ty := parts.getD 1 ""
    if name = "" || ty = "" then tree
    else objAssign tree name (if ty = "d" then TreeNode.dir else TreeNode.file)

/-- `toTree(items)`: deduplicate the raw `"name|kind"` strings, then run the
assignment loop over what remains. -/
def toTree (items : List String) : List (String × TreeNode) :=
  (dedupFirst items).foldl toTreeStep []

/-- Concatenation of streamed chunks in arrival order. -/
def strJoin : List String → String
  | [] => ""
  | s :: rest => s ++ strJoin rest

/-- Provenance/shape predicate for one entry of a built tree: some raw item of
the input list carries exactly this name, and its kind token is `"d"` exactly
when the entry is a directory. -/
def treeEntryFrom (items : List String) (e : String × TreeNode) : Prop :=
  ∃ item ∈ items,
    ((jsSplitChar item '|').getD 0 "" = e.1) ∧
    (((jsSplitChar item '|').getD 1 "" = "d") ↔ e.2 = TreeNode.dir)

/-- The top-level field names of a parsed manifest object. -/
def manifestTopKeys : JsonValue → List String
  | .obj fields => fields.map Prod.fst
  | _ => []

end IDE
namespace IDE

theorem strExt {s t : String} (h : s.data = t.data) : s = t := by
  cases s; cases t; simp_all

theorem isSuffixOf_true_iff {l₁ l₂ : List Char} :
    l₁.isSuffixOf l₂ = true ↔ l₁ <:+ l₂ := by
  simp [List.isSuffixOf]

theorem jsEndsWith_iff {s post : String} :
    jsEndsWith s post = true ↔ post.data <:+ s.data := by
  simp [jsEndsWith, List.isSuffixOf]

theorem suffix_of_suffix_le {a b s : List Char} (ha : a <:+ s) (hb : b <:+ s)
    (hab : a.length ≤ b.length) : a <:+ b := by
  rw [← List.reverse_prefix] at ha hb ⊢
  exact List.prefix_of_prefix_length_le ha hb (by simpa using hab)

theorem firstOccSplit_eq {pat : List Char} :
    ∀ {l pre suf : List Char}, firstOccSplit pat l = some (pre, suf) →
      l = pre ++ pat ++ suf := by
  intro l
  induction l with
  | nil =>
    intro pre suf h
    simp only [firstOccSplit] at h
    split at h
    · next hp =>
      simp_all [List.isEmpty_iff]
    · exact absurd h (by simp)
  | cons c rest ih =>
    intro pre suf h
    simp only [firstOccSplit] at h
    split at h
    · next hp =>
      have hpre : pat <+: c :: rest := by
        simpa [List.isPrefixOf_iff_prefix] using hp
      have := List.prefix_iff_eq_append.mp hpre
      simp only [Option.some.injEq, Prod.mk.injEq] at h
      obtain ⟨h1, h2⟩ := h
      subst h1; subst h2
      simpa using this.symm
    · next hp =>
      cases hrec : firstOccSplit pat rest with
      | none => rw [hrec] at h; exact absurd h (by simp)
      | some pr =>
        rw [hrec] at h
        obtain ⟨pre', suf'⟩ := pr
        simp only [Option.some.injEq, Prod.mk.injEq] at h
        obtain ⟨h1, h2⟩ := h
        subst h2
        have := ih hrec
        subst this
        cases h1
        simp

theorem firstOccSplit_isSome_of_infix {pat l : List Char}
    (h : pat <:+: l) : (firstOccSplit pat l).isSome = true := by
  obtain ⟨a, b, hab⟩ := h
  induction a generalizing l with
  | nil =>
    simp only [List.nil_append] at hab
    subst hab
    cases pat with
    | nil => cases b <;> simp [firstOccSplit]
    | cons p ps =>
      have hp : (p :: ps).isPrefixOf (p :: ps ++ b) = true := by
        rw [List.isPrefixOf_iff_prefix]; exact ⟨b, by simp⟩
      simp [firstOccSplit, hp]
  | cons x xs ih =>
    subst hab
    simp only [List.cons_append, firstOccSplit]
    split
    · simp
    · have := ih (l := xs ++ pat ++ b) (by simp)
      cases hr : firstOccSplit pat (xs ++ pat ++ b) with
      | none => rw [hr] at this; simp at this
      | some pr => simp [hr]

theorem jsIncludes_iff {s sub : String} :
    jsIncludes s sub = true ↔ sub.data <:+: s.data := by
  constructor
  · intro h
    simp only [jsIncludes, Option.isSome_iff_exists] at h
    obtain ⟨⟨pre, suf⟩, hp⟩ := h
    exact ⟨pre, suf, (firstOccSplit_eq hp).symm ▸ by simp⟩
  · intro h
    exact firstOccSplit_isSome_of_infix h

end IDE
namespace IDE

/-! Decidable facts about the extension table. -/

theorem extFragment_not_suffix_of_canonical :
    ∀ p ∈ extensionMap, ∀ c ∈ canonicalExts,
      p.1.data.isSuffixOf c.data = false := by decide

theorem extCanonical_not_suffix_of_fragment :
    ∀ p ∈ extensionMap, ∀ c ∈ canonicalExts, c ≠ p.2 →
      c.data.isSuffixOf p.1.data = false := by decide

theorem extFragments_not_suffix :
    ∀ p ∈ extensionMap, ∀ q ∈ extensionMap, p.1 ≠ q.1 →
      p.1.data.isSuffixOf q.1.data = false := by decide

theorem extKeys_nodup : (extensionMap.map Prod.fst).Nodup := by decide

theorem extFragment_shorter :
    ∀ p ∈ extensionMap, p.1.data.length < p.2.data.length := by decide

theorem not_suffix_of_isSuffixOf_false {a b : List Char}
    (h : a.isSuffixOf b = false) : ¬a <:+ b := by
  intro hs
  rw [← isSuffixOf_true_iff] at hs
  simp [hs] at h

/-- If the path ends with two strings, the shorter one is a suffix of the
longer one. -/
theorem ends_ends_suffix {path a b : String} (ha : jsEndsWith path a = true)
    (hb : jsEndsWith path b = true) (hab : a.data.length ≤ b.data.length) :
    a.data <:+ b.data :=
  suffix_of_suffix_le (jsEndsWith_iff.mp ha) (jsEndsWith_iff.mp hb) hab

/-- When no entry's guard fires, the scan returns the path unchanged. -/
theorem fixExtGo_id {path : String} :
    ∀ l : List (String × String),
      (∀ p ∈ l, ¬(jsEndsWith path p.1 = true ∧ jsEndsWith path p.2 = false)) →
      fixExtGo path l = path := by
  intro l
  induction l with
  | nil => intro _; rfl
  | cons q rest ih =>
    intro h
    obtain ⟨inc, comp⟩ := q
    simp only [fixExtGo]
    have hq := h (inc, comp) (by simp)
    split
    · next hg =>
      simp only [Bool.and_eq_true, Bool.not_eq_true'] at hg
      exact absurd ⟨hg.1, hg.2⟩ hq
    · exact ih fun p hp => h p (by simp [hp])

/-- Claim-level statement: a path already ending in a canonical extension of
the table is returned unchanged. -/
theorem fixIncompleteExtension_canonical {path comp : String}
    (hc : comp ∈ canonicalExts) (he : jsEndsWith path comp = true) :
    fixIncompleteExtension path = path := by
  apply fixExtGo_id
  intro p hp hcontra
  obtain ⟨h1, h2⟩ := hcontra
  by_cases hpc : comp = p.2
  · rw [hpc] at he
    rw [he] at h2
    exact absurd h2 (by simp)
  · rcases Nat.le_total p.1.data.length comp.data.length with hle | hle
    · exact not_suffix_of_isSuffixOf_false
        (extFragment_not_suffix_of_canonical p hp comp hc)
        (ends_ends_suffix h1 he hle)
    · exact not_suffix_of_isSuffixOf_false
        (extCanonical_not_suffix_of_fragment p hp comp hc hpc)
        (ends_ends_suffix he h1 hle)

/-- When exactly the entry `(inc, comp)` fires, the scan performs that
replacement. -/
theorem fixExtGo_hit {path inc comp : String} :
    ∀ l : List (String × String), (l.map Prod.fst).Nodup →
      (inc, comp) ∈ l →
      (∀ p ∈ l, p.1 ≠ inc → jsEndsWith path p.1 = false) →
      jsEndsWith path inc = true → jsEndsWith path comp = false →
      fixExtGo path l = jsReplaceFirst path inc comp := by
  intro l
  induction l with
  | nil => intro _ hmem; simp at hmem
  | cons q rest ih =>
    intro hnd hmem hothers hinc hcomp
    obtain ⟨i, c⟩ := q
    by_cases hq : (i, c) = (inc, comp)
    · obtain ⟨h1, h2⟩ := Prod.mk.injEq .. ▸ hq
      subst h1; subst h2
      simp only [fixExtGo]
      rw [hinc, hcomp]
      simp
    · have hmem' : (inc, comp) ∈ rest := by
        cases List.mem_cons.mp hmem with
        | inl h => exact absurd h.symm hq
        | inr h => exact h
      have hne : i ≠ inc := by
        intro hcontra
        subst hcontra
        have : i ∈ rest.map Prod.fst := List.mem_map_of_mem Prod.fst hmem'
        simp only [List.map_cons, List.nodup_cons] at hnd
        exact hnd.1 this
      have hi : jsEndsWith path i = false := hothers (i, c) (by simp) hne
      simp only [fixExtGo, hi, Bool.false_and, Bool.false_eq_true, if_false]
      exact ih (by simp_all) hmem'
        (fun p hp hne' => hothers p (by simp [hp]) hne') hinc hcomp

end IDE
namespace IDE

theorem fixIncompleteExtension_fragment {path inc comp : String} {pre : List Char}
    (hmem : (inc, comp) ∈ extensionMap)
    (hsplit : firstOccSplit inc.data path.data = some (pre, [])) :
    fixIncompleteExtension path = ⟨pre ++ comp.data⟩ ∧
    jsEndsWith (fixIncompleteExtension path) comp = true := by
  have hpath : path.data = pre ++ inc.data := by
    have := firstOccSplit_eq hsplit
    simpa using this
  have hinc : jsEndsWith path inc = true :=
    jsEndsWith_iff.mpr ⟨pre, hpath.symm⟩
  have hcompmem : comp ∈ canonicalExts :=
    List.mem_map_of_mem Prod.snd hmem
  have hcomp : jsEndsWith path comp = false := by
    rw [Bool.eq_false_iff]
    intro htrue
    exact not_suffix_of_isSuffixOf_false
      (extFragment_not_suffix_of_canonical (inc, comp) hmem comp hcompmem)
      (ends_ends_suffix hinc htrue
        (Nat.le_of_lt (extFragment_shorter (inc, comp) hmem)))
  have hothers : ∀ p ∈ extensionMap, p.1 ≠ inc → jsEndsWith path p.1 = false := by
    intro p hp hne
    rw [Bool.eq_false_iff]
    intro htrue
    rcases Nat.le_total p.1.data.length inc.data.length with hle | hle
    · exact not_suffix_of_isSuffixOf_false
        (extFragments_not_suffix p hp (inc, comp) hmem hne)
        (ends_ends_suffix htrue hinc hle)
    · exact not_suffix_of_isSuffixOf_false
        (extFragments_not_suffix (inc, comp) hmem p hp (Ne.symm hne))
        (ends_ends_suffix hinc htrue hle)
  have hfix : fixIncompleteExtension path = jsReplaceFirst path inc comp :=
    fixExtGo_hit extensionMap extKeys_nodup hmem hothers hinc hcomp
  have hrepl : jsReplaceFirst path inc comp = ⟨pre ++ comp.data⟩ := by
    simp [jsReplaceFirst, hsplit]
  refine ⟨hfix.trans hrepl, ?_⟩
  rw [hfix, hrepl]
  exact jsEndsWith_iff.mpr ⟨pre, rfl⟩

end IDE
namespace IDE

theorem keepSafeAscii_not_cr {c : Char} (h : keepSafeAscii c = true) :
    c ≠ '\r' := by
  intro hc
  subst hc
  simp [keepSafeAscii] at h

theorem keepSafeAscii_not_ctl {c : Char} (h : keepSafeAscii c = true) :
    ctlStep2 c = false := by
  simp only [keepSafeAscii, Bool.or_eq_true, Bool.and_eq_true,
    decide_eq_true_eq] at h
  simp only [ctlStep2, Bool.or_eq_false_iff, Bool.and_eq_false_iff,
    decide_eq_false_iff_not]
  omega

theorem crlfToLf_of_noCR {l : List Char} (h : ∀ c ∈ l, c ≠ '\r') :
    crlfToLf l = l := by
  induction l using crlfToLf.induct with
  | case1 => rfl
  | case2 rest ih => exact absurd rfl (h _ (by simp))
  | case3 c rest hne ih => simp_all [crlfToLf]

theorem mem_crlfToLf {l : List Char} {c : Char} (h : c ∈ crlfToLf l) :
    c ∈ l ∨ c = '\n' := by
  induction l using crlfToLf.induct with
  | case1 => simp [crlfToLf] at h
  | case2 rest ih =>
    rw [crlfToLf.eq_2] at h
    rcases List.mem_cons.mp h with h' | h'
    · exact Or.inr h'
    · rcases ih h' with h'' | h''
      · exact Or.inl (by simp [h''])
      · exact Or.inr h''
  | case3 d rest hne ih =>
    rw [crlfToLf.eq_3 d rest hne] at h
    rcases List.mem_cons.mp h with h' | h'
    · exact Or.inl (by simp [h'])
    · rcases ih h' with h'' | h''
      · exact Or.inl (by simp [h''])
      · exact Or.inr h''

theorem normalizeNewlines_noCR {l : List Char} {c : Char}
    (h : c ∈ normalizeNewlines l) : c ≠ '\r' := by
  simp only [normalizeNewlines, List.mem_map] at h
  obtain ⟨a, _, ha⟩ := h
  intro hc
  subst hc
  by_cases had : a = '\r' <;> simp_all

theorem mem_normalizeNewlines {l : List Char} {c : Char}
    (h : c ∈ normalizeNewlines l) : c ∈ l ∨ c = '\n' := by
  simp only [normalizeNewlines, List.mem_map] at h
  obtain ⟨a, ha, hac⟩ := h
  by_cases had : a = '\r'
  · subst had; simp at hac; exact Or.inr hac.symm
  · simp [had] at hac
    subst hac
    exact mem_crlfToLf ha

theorem normalizeNewlines_of_noCR {l : List Char} (h : ∀ c ∈ l, c ≠ '\r') :
    normalizeNewlines l = l := by
  rw [normalizeNewlines, crlfToLf_of_noCR h]
  apply List.map_congr_left ?_ |>.trans (List.map_id l)
  intro c hc
  simp [h c hc]

end IDE
namespace IDE

/-- Every character surviving `stripPhase` is in the printable-ASCII + TAB +
LF whitelist. -/
theorem stripPhase_all_safe {s : String} :
    ∀ c ∈ (stripPhase s).data, keepSafeAscii c = true := by
  intro c hc
  simp only [stripPhase] at hc
  rcases mem_normalizeNewlines hc with h | h
  · exact List.of_mem_filter (List.mem_of_mem_filter h)
  · subst h; decide

/-- `stripPhase` is the identity on whitelisted strings. -/
theorem stripPhase_of_safe {s : String}
    (h : ∀ c ∈ s.data, keepSafeAscii c = true) : stripPhase s = s := by
  apply strExt
  simp only [stripPhase]
  rw [List.filter_eq_self.mpr h]
  rw [List.filter_eq_self.mpr fun c hc => by simp [keepSafeAscii_not_ctl (h c hc)]]
  exact normalizeNewlines_of_noCR fun c hc => keepSafeAscii_not_cr (h c hc)

theorem stripPhase_idem {s : String} :
    stripPhase (stripPhase s) = stripPhase s :=
  stripPhase_of_safe stripPhase_all_safe

/-- On input whose characters are whitelisted or CR, the `index.ts` strip
phase is exactly newline normalization. -/
theorem stripPhaseIndex_of_safeCR {s : String}
    (h : ∀ c ∈ s.data, keepSafeAscii c = true ∨ c = '\r') :
    stripPhaseIndex s = ⟨normalizeNewlines s.data⟩ := by
  have h1 : s.data.filter keepSafeAsciiIndex = s.data :=
    List.filter_eq_self.mpr fun c hc => by
      rcases h c hc with h' | h'
      · simp [keepSafeAsciiIndex, h']
      · subst h'; decide
  have h2 : s.data.filter (fun c => !ctlStep2 c) = s.data :=
    List.filter_eq_self.mpr fun c hc => by
      rcases h c hc with h' | h'
      · simp [keepSafeAscii_not_ctl h']
      · subst h'; decide
  simp only [stripPhaseIndex, h1, h2]

/-- Off the manifest branch, `DockerManager.ultraCleanContent` is the strip
phase guarded by the empty-content short-circuit. -/
theorem ultraCleanContent_nonManifest {content path : String}
    (h : isManifestPath path = false) :
    ultraCleanContent content path =
      if content = "" then "" else stripPhase content := by
  simp [ultraCleanContent, jsonBranch, h]

theorem ultraCleanContentIndex_nonManifest {content path : String}
    (h : isManifestPath path = false) :
    ultraCleanContentIndex content path =
      if content = "" then "" else stripPhaseIndex content := by
  simp [ultraCleanContentIndex, jsonBranch, h]

end IDE
namespace IDE

theorem strAppend_eq_empty {s t : String} (h : s ++ t = "") :
    s = "" ∧ t = "" := by
  have hd : (s ++ t).data = ("" : String).data := by rw [h]
  rw [String.data_append] at hd
  simp at hd
  exact ⟨strExt (by simp [hd.1]), strExt (by simp [hd.2])⟩

theorem lookup_eraseKey {α : Type} (l : List (String × α)) (k : String) :
    (eraseKey l k).lookup k = none := by
  induction l with
  | nil => rfl
  | cons p rest ih =>
    by_cases hp : p.1 = k
    · simpa [eraseKey, List.filter_cons, hp] using ih
    · have hk : (k == p.1) = false := beq_eq_false_iff_ne.mpr fun h => hp h.symm
      simp only [eraseKey, List.filter_cons] at ih ⊢
      simp [List.lookup, hk, hp, ih]
      intro a b _ hne hk2
      exact hne hk2.symm

theorem readFold_go_no_err {chunks : List String}
    (h : ∀ ch ∈ chunks, readChunkIsError ch = false) :
    ∀ acc : String × String,
      chunks.foldl readFoldStep acc = (acc.1 ++ strJoin chunks, acc.2) := by
  induction chunks with
  | nil => intro acc; simp [strJoin]
  | cons ch rest ih =>
    intro acc
    have hch := h ch (by simp)
    simp only [List.foldl_cons, readFoldStep, hch, Bool.false_eq_true,
      if_false]
    rw [ih (fun c hc => h c (by simp [hc]))]
    simp [strJoin, String.append_assoc]

theorem readChunkIsError_empty : readChunkIsError "" = false := by decide

theorem readFold_go_err_empty {chunks : List String} :
    ∀ acc : String × String, (chunks.foldl readFoldStep acc).2 = "" →
      acc.2 = "" ∧ ∀ ch ∈ chunks, readChunkIsError ch = false := by
  induction chunks with
  | nil => intro acc h; exact ⟨h, by simp⟩
  | cons ch rest ih =>
    intro acc h
    simp only [List.foldl_cons] at h
    obtain ⟨hstep, hrest⟩ := ih (readFoldStep acc ch) h
    by_cases hch : readChunkIsError ch = true
    · exfalso
      simp only [readFoldStep, hch, if_true] at hstep
      obtain ⟨_, hch0⟩ := strAppend_eq_empty hstep
      subst hch0
      rw [readChunkIsError_empty] at hch
      exact absurd hch (by simp)
    · simp only [readFoldStep, hch, if_false] at hstep
      refine ⟨hstep, ?_⟩
      intro c hc
      rcases List.mem_cons.mp hc with h' | h'
      · subst h'; simpa using hch
      · exact hrest c h'

end IDE
namespace IDE

/-! `toTree` lemmas. -/

theorem objAssign_keys {α : Type} (l : List (String × α)) (k : String) (v : α) :
    (objAssign l k v).map Prod.fst =
      if l.any (fun p => p.1 = k) then l.map Prod.fst
      else l.map Prod.fst ++ [k] := by
  by_cases h : l.any (fun p => p.1 = k)
  · simp only [objAssign, h, if_true]
    rw [List.map_map]
    apply List.map_congr_left
    intro p _
    by_cases hp : p.1 = k <;> simp [hp]
  · simp only [objAssign, h]
    simp [h]

theorem objAssign_keys_nodup {α : Type} {l : List (String × α)} {k : String}
    {v : α} (h : (l.map Prod.fst).Nodup) :
    ((objAssign l k v).map Prod.fst).Nodup := by
  rw [objAssign_keys]
  split
  · exact h
  · next hany =>
    have hk : k ∉ l.map Prod.fst := by
      intro hmem
      apply hany
      simp only [List.mem_map] at hmem
      obtain ⟨p, hp, hpk⟩ := hmem
      exact List.any_eq_true.mpr ⟨p, hp, by simp [hpk]⟩
    rw [List.nodup_append]
    refine ⟨h, List.nodup_singleton k, ?_⟩
    intro a ha hb
    simp only [List.mem_singleton] at hb
    subst hb
    exact hk ha

theorem mem_objAssign {α : Type} {l : List (String × α)} {k : String} {v : α}
    {e : String × α} (h : e ∈ objAssign l k v) : e ∈ l ∨ e = (k, v) := by
  simp only [objAssign] at h
  split at h
  · simp only [List.mem_map] at h
    obtain ⟨p, hp, hpe⟩ := h
    by_cases hpk : p.1 = k
    · simp only [hpk, if_true] at hpe
      exact Or.inr hpe.symm
    · simp only [hpk, if_false] at hpe
      exact Or.inl (hpe ▸ hp)
  · rcases List.mem_append.mp h with h' | h'
    · exact Or.inl h'
    · exact Or.inr (by simpa using h')

theorem mem_dedupFirstAux {seen l : List String} {x : String}
    (h : x ∈ dedupFirstAux seen l) : x ∈ l := by
  induction l generalizing seen with
  | nil => simp [dedupFirstAux] at h
  | cons y rest ih =>
    simp only [dedupFirstAux] at h
    split at h
    · exact List.mem_cons_of_mem y (ih h)
    · rcases List.mem_cons.mp h with h' | h'
      · exact h' ▸ List.mem_cons_self x rest
      · exact List.mem_cons_of_mem y (ih h')

theorem mem_dedupFirst {l : List String} {x : String}
    (h : x ∈ dedupFirst l) : x ∈ l :=
  mem_dedupFirstAux h

theorem toTree_fold_keys_nodup {l : List String} :
    ∀ acc : List (String × TreeNode), (acc.map Prod.fst).Nodup →
      ((l.foldl toTreeStep acc).map Prod.fst).Nodup := by
  induction l with
  | nil => intro acc h; exact h
  | cons item rest ih =>
    intro acc h
    simp only [List.foldl_cons]
    apply ih
    simp only [toTreeStep]
    split
    · exact h
    · split
      · exact h
      · exact objAssign_keys_nodup h

theorem toTree_fold_from {items : List String} {l : List String}
    (hsub : ∀ x ∈ l, x ∈ items) :
    ∀ acc : List (String × TreeNode), (∀ e ∈ acc, treeEntryFrom items e) →
      ∀ e ∈ l.foldl toTreeStep acc, treeEntryFrom items e := by
  induction l with
  | nil => intro acc h; exact h
  | cons item rest ih =>
    intro acc hacc
    simp only [List.foldl_cons]
    apply ih (fun x hx => hsub x (by simp [hx]))
    intro e he
    simp only [toTreeStep] at he
    split at he
    · exact hacc e he
    · split at he
      · exact hacc e he
      · next hne =>
        rcases mem_objAssign he with h' | h'
        · exact hacc e h'
        · subst h'
          refine ⟨item, hsub item (by simp), rfl, ?_⟩
          by_cases hd : (jsSplitChar item '|').getD 1 "" = "d" <;>
            simp [hd]

end IDE
namespace IDE

theorem jsIncludes_of_infix {s a b : String} (hab : a.data <:+: b.data)
    (hbs : jsIncludes s b = true) : jsIncludes s a = true :=
  jsIncludes_iff.mpr (hab.trans (jsIncludes_iff.mp hbs))

theorem strEmpty_append (s : String) : "" ++ s = s :=
  strExt (by rw [String.data_append]; rfl)

/-! ### Claim theorems -/

/-- C1 counterexample: `createUserContainer` resolves the same host-bound
storage path for two distinct session ids — the path
`path.resolve(process.cwd(), 'user')` does not depend on the session id, so
two live sessions share the bind-mounted directory and the claimed per-session
exclusivity fails. -/
theorem claim_C1_counterexample :
    hostPath "/app/server" "alice" = hostPath "/app/server" "bob" ∧
    ("alice" : String) ≠ "bob" := by decide

/-- C1 (amended): every session is bind-mounted to the one fixed host
directory `<cwd>/user` (so the bind spec is also identical across sessions);
only the container name `user-<id>` is derived deterministically — and
injectively — from the session id. -/
theorem claim_C1 :
    (∀ cwd a b : String, hostPath cwd a = hostPath cwd b) ∧
    (∀ cwd a b : String, bindSpec cwd a = bindSpec cwd b) ∧
    (∀ a b : String, containerName a = containerName b → a = b) := by
  refine ⟨fun _ _ _ => rfl, fun _ _ _ => rfl, ?_⟩
  intro a b h
  have hd : ("user-" ++ a).data = ("user-" ++ b).data := congrArg String.data h
  rw [String.data_append, String.data_append] at hd
  exact strExt (List.append_cancel_left hd)

/-- C1 witness: the amended theorem applied at concrete session ids. -/
theorem claim_C1_witness :
    hostPath "/app" "s1" = hostPath "/app" "s2" ∧ ("s9" : String) = "s9" :=
  ⟨claim_C1.1 "/app" "s1" "s2", claim_C1.2.2 "s9" "s9" rfl⟩

/-- C2 counterexample: `"a.j.j"` has final extension `.j`, a table fragment
mapping to `.js`, but `String.replace` rewrites the *first* occurrence of the
fragment, yielding `"a.js.j"`, which does not end in `.js` — refuting the
claim that every such path is rewritten to end in its canonical extension. -/
theorem claim_C2_counterexample :
    fixIncompleteExtension "a.j.j" = "a.js.j" ∧
    jsEndsWith (fixIncompleteExtension "a.j.j") ".js" = false := by decide

/-- C2 (amended): path repair is deterministic and table-driven with first
match winning, and (i) a path already ending in a canonical extension of the
table is returned unchanged; (ii) when the matched fragment's first occurrence
in the path is the terminal one, the path is rewritten by replacing that
suffix and the result ends in the corresponding canonical extension.  (In
general the code replaces the fragment's first occurrence, which need not be
the final extension.) -/
theorem claim_C2 :
    (∀ path comp : String, comp ∈ canonicalExts → jsEndsWith path comp = true →
      fixIncompleteExtension path = path) ∧
    (∀ (path inc comp : String) (pre : List Char), (inc, comp) ∈ extensionMap →
      firstOccSplit inc.data path.data = some (pre, []) →
      fixIncompleteExtension path = ⟨pre ++ comp.data⟩ ∧
      jsEndsWith (fixIncompleteExtension path) comp = true) :=
  ⟨fun _ _ hc he => fixIncompleteExtension_canonical hc he,
   fun _ _ _ _ hm hs => fixIncompleteExtension_fragment hm hs⟩

/-- C2 witness: `"a.js"` is already canonical and unchanged; `"main.j"` ends
in the fragment `.j` (its only occurrence) and is rewritten to `"main.js"`. -/
theorem claim_C2_witness :
    fixIncompleteExtension "a.js" = "a.js" ∧
    fixIncompleteExtension "main.j" = "main.js" ∧
    jsEndsWith (fixIncompleteExtension "main.j") ".js" = true := by
  refine ⟨claim_C2.1 "a.js" ".js" (by decide) (by decide), ?_, ?_⟩
  · have h := claim_C2.2 "main.j" ".j" ".js" "main".data (by decide) (by decide)
    exact h.1.trans (by decide)
  · exact (claim_C2.2 "main.j" ".j" ".js" "main".data (by decide) (by decide)).2

/-- C5 counterexample: cleaning is not idempotent through the
structured-manifest branch.  For `package.json` content `{"a":"\u00e9"}`,
`JSON.parse` decodes the escape to the non-ASCII `é`, which
`JSON.stringify` emits verbatim; the second pass strips it, so cleaning twice
differs from cleaning once. -/
theorem claim_C5_counterexample :
    ultraCleanContent
        (ultraCleanContent "\x7b\"a\":\"\\u00e9\"\x7d" "package.json")
        "package.json" ≠
      ultraCleanContent "\x7b\"a\":\"\\u00e9\"\x7d" "package.json" := by decide

/-- C5 (amended): `ultraCleanContent` is idempotent for every file path that
does not trigger the structured-manifest branch (the path contains neither
`.json` nor `package`); on the manifest branch, re-serialization of `\uXXXX`
escapes can emit non-ASCII characters that a second pass strips. -/
theorem claim_C5 :
    ∀ content path : String, isManifestPath path = false →
      ultraCleanContent (ultraCleanContent content path) path =
        ultraCleanContent content path := by
  intro content path h
  rw [ultraCleanContent_nonManifest h, ultraCleanContent_nonManifest h]
  by_cases hc : content = ""
  · simp [hc]
  · simp only [hc, if_false]
    by_cases hs : stripPhase content = ""
    · simp [hs]
    · simp [hs, stripPhase_idem]

/-- C5 witness: the amended idempotence at a concrete non-manifest path and
content with control characters and CRLF. -/
theorem claim_C5_witness :
    ultraCleanContent (ultraCleanContent "a\x01b\r\n" "m.txt") "m.txt" =
      ultraCleanContent "a\x01b\r\n" "m.txt" :=
  claim_C5 "a\x01b\r\n" "m.txt" (by decide)

/-- C8: tree building deduplicates and shapes entries — the spec's example
evaluates exactly as claimed, the built tree has one key per name, and every
entry descends from a raw item whose kind token is `"d"` exactly for
directory entries (`{}`), anything else giving the `null` file leaf. -/
theorem claim_C8 :
    toTree ["a.txt|f", "b|d", "a.txt|f"] =
      [("a.txt", TreeNode.file), ("b", TreeNode.dir)] ∧
    (∀ items : List String, ((toTree items).map Prod.fst).Nodup) ∧
    (∀ (items : List String) (e : String × TreeNode), e ∈ toTree items →
      treeEntryFrom items e) := by
  refine ⟨by decide, ?_, ?_⟩
  · intro items
    exact toTree_fold_keys_nodup [] (by simp)
  · intro items e he
    exact toTree_fold_from (fun x hx => mem_dedupFirst hx) [] (by simp) e he

/-- C8 witness: the provenance part applied at the concrete tree
`toTree ["x|d"]` and its entry `("x", dir)`. -/
theorem claim_C8_witness :
    toTree ["a.txt|f", "b|d", "a.txt|f"] =
      [("a.txt", TreeNode.file), ("b", TreeNode.dir)] ∧
    treeEntryFrom ["x|d"] ("x", TreeNode.dir) :=
  ⟨claim_C8.1, claim_C8.2.2 ["x|d"] ("x", TreeNode.dir) (by decide)⟩

/-- C9 counterexample: the legacy `writeFileToContainer` called with an
unknown session id logs and resolves successfully without writing anything —
the caller receives success, not an error. -/
theorem claim_C9_counterexample :
    writeFileToContainerLegacy [] "ghost" "a.txt" "hello" = .ok none := rfl

/-- C9 (amended): the enhanced `writeFileToContainer` rejects a write for a
session id with no registered container with the error `Container not found`
(the legacy variant instead resolves silently without writing, and listing or
delete operations resolve silently with empty results). -/
theorem claim_C9 :
    ∀ (containers : List (String × Nat)) (userId filePath content : String),
      containers.lookup userId = none →
      writeFileToContainer containers userId filePath content =
        .error "Container not found" := by
  intro cs uid p c h
  simp [writeFileToContainer, h]

/-- C9 witness: the amended theorem at an empty registry. -/
theorem claim_C9_witness :
    writeFileToContainer [] "ghost" "a.txt" "hello" =
      .error "Container not found" :=
  claim_C9 [] "ghost" "a.txt" "hello" rfl

end IDE
namespace IDE

/-- C3 counterexample: the empty string is not a valid manifest, yet for the
recognized manifest filename `package.json` the cleaner short-circuits on
falsy content (`if (!content) return ''`) and returns the empty string — not
the fixed parseable default — so the claimed universal replacement fails. -/
theorem claim_C3_counterexample :
    ultraCleanContent "" "package.json" = "" ∧
    ultraCleanContent "" "package.json" ≠ defaultPackageJsonStr ∧
    (jsonParse (ultraCleanContent "" "package.json")).isNone = true := by
  refine ⟨rfl, ?_, rfl⟩
  decide

set_option maxRecDepth 8192 in
/-- C3 (amended): for every *non-empty* content whose sanitized form does not
parse as JSON, writing to a path containing `package.json` substitutes the one
fixed default manifest, which parses and carries the required minimal fields;
an empty input instead short-circuits to the empty string. -/
theorem claim_C3 :
    ∀ content path : String, content ≠ "" →
      jsonParse (stripPhase content) = none →
      jsIncludes path "package.json" = true →
      ultraCleanContent content path = defaultPackageJsonStr ∧
      (jsonParse defaultPackageJsonStr).isSome = true ∧
      (jsonParse defaultPackageJsonStr).map manifestTopKeys =
        some ["name", "version", "main", "type", "scripts", "keywords",
              "author", "license", "description"] := by
  intro content path hne hparse hpkg
  have hman : isManifestPath path = true := by
    have hp : jsIncludes path "package" = true :=
      jsIncludes_of_infix ⟨[], ".json".data, by decide⟩ hpkg
    simp [isManifestPath, hp]
  refine ⟨?_, rfl, rfl⟩
  simp only [ultraCleanContent, if_neg hne, jsonBranch, hman, if_true, hparse,
    hpkg]

set_option maxRecDepth 8192 in
/-- C3 witness: the amended theorem at the invalid manifest text
`"not json"`. -/
theorem claim_C3_witness :
    ultraCleanContent "not json" "package.json" = defaultPackageJsonStr :=
  (claim_C3 "not json" "package.json" (by decide) rfl (by decide)).1

/-- C4 counterexample: the cited legacy `writeFileToContainer` sanitizer only
removes control characters, so the printable non-ASCII `é` survives into the
written content, refuting the printable-ASCII whitelist claim for that write
path. -/
theorem claim_C4_counterexample :
    sanitizeWriteLegacy "é" = "é" ∧
    ¬∀ c ∈ (sanitizeWriteLegacy "é").data, keepSafeAscii c = true := by
  constructor
  · decide
  · decide

/-- C4 (amended): for the enhanced `file:change` write pipeline and every
repaired path off the structured-manifest branch, the written content
contains only printable ASCII plus LF and TAB and never a CR; and on input
made of whitelisted characters plus CRs, every CRLF and lone CR is normalized
to LF.  (The legacy inline sanitizer keeps printable non-ASCII, and the
manifest branch can re-introduce non-ASCII decoded from `\uXXXX` escapes.) -/
theorem claim_C4 :
    ∀ path content : String,
      isManifestPath (fixIncompleteExtension (fixIncompleteExtension path)) =
        false →
      (∀ c ∈ (fileChangeWrittenContent path content).data,
        keepSafeAscii c = true) ∧
      '\r' ∉ (fileChangeWrittenContent path content).data ∧
      (isManifestPath (fixIncompleteExtension path) = false →
        (∀ c ∈ content.data, keepSafeAscii c = true ∨ c = '\r') →
        fileChangeWrittenContent path content =
          ⟨normalizeNewlines content.data⟩) := by
  intro path content hman2
  have ha : ∀ c ∈ (fileChangeWrittenContent path content).data,
      keepSafeAscii c = true := by
    intro c hc
    simp only [fileChangeWrittenContent] at hc
    rw [ultraCleanContent_nonManifest hman2] at hc
    split at hc
    · simp at hc
    · exact stripPhase_all_safe c hc
  refine ⟨ha, ?_, ?_⟩
  · intro hmem
    have := ha '\r' hmem
    exact absurd this (by decide)
  · intro hman1 hchars
    simp only [fileChangeWrittenContent]
    rw [ultraCleanContentIndex_nonManifest hman1]
    by_cases hcne : content = ""
    · subst hcne
      simp only [if_pos rfl]
      rw [ultraCleanContent_nonManifest hman2]
      rfl
    · rw [if_neg hcne, stripPhaseIndex_of_safeCR hchars]
      rw [ultraCleanContent_nonManifest hman2]
      by_cases hr : (⟨normalizeNewlines content.data⟩ : String) = ""
      · rw [if_pos hr, hr]
      · rw [if_neg hr]
        apply stripPhase_of_safe
        intro c hc
        simp only at hc
        rcases mem_normalizeNewlines hc with h' | h'
        · rcases hchars c h' with h'' | h''
          · exact h''
          · exact absurd h'' (normalizeNewlines_noCR hc)
        · subst h'; decide

/-- C4 witness: the amended theorem at a non-manifest path and content mixing
a control byte, CRLF and a lone CR. -/
theorem claim_C4_witness :
    (∀ c ∈ (fileChangeWrittenContent "m.txt" "a\r\nb\rc").data,
      keepSafeAscii c = true) ∧
    fileChangeWrittenContent "m.txt" "a\r\nb\rc" =
      ⟨normalizeNewlines "a\r\nb\rc".data⟩ :=
  ⟨(claim_C4 "m.txt" "a\r\nb\rc" (by decide)).1,
   (claim_C4 "m.txt" "a\r\nb\rc" (by decide)).2.2 (by decide) (by decide)⟩

end IDE
namespace IDE

/-- C6: session destruction is idempotent and total — for every bookkeeping
state, session id (known or unknown), shell-end behaviour and any outcome of
the remote `stop()`/`remove()` calls, `cleanupContainer` resolves (never
rejects) and both map entries for the id are gone afterwards. -/
theorem claim_C6 :
    ∀ (st : DMState) (userId : String) (shellEndThrows : Bool)
      (stopCall removeCall : DockerCallResult),
      ∃ st' : DMState,
        cleanupContainer st userId shellEndThrows stopCall removeCall =
          .ok st' ∧
        st'.userContainers.lookup userId = none ∧
        st'.userShells.lookup userId = none := by
  intro st uid b s r
  cases hsh : st.userShells.lookup uid with
  | none =>
    cases hc : st.userContainers.lookup uid with
    | none =>
      exact ⟨st, by simp [cleanupContainer, hsh, hc], hc, hsh⟩
    | some v =>
      refine ⟨{ st with userContainers := eraseKey st.userContainers uid }, ?_,
        lookup_eraseKey _ _, hsh⟩
      cases s <;> cases r <;> simp [cleanupContainer, hsh, hc]
  | some sh =>
    cases hc : st.userContainers.lookup uid with
    | none =>
      refine ⟨{ st with userShells := eraseKey st.userShells uid }, ?_, hc,
        lookup_eraseKey _ _⟩
      simp [cleanupContainer, hsh, hc]
    | some v =>
      refine ⟨⟨eraseKey st.userContainers uid, eraseKey st.userShells uid⟩, ?_,
        lookup_eraseKey _ _, lookup_eraseKey _ _⟩
      cases s <;> cases r <;> simp [cleanupContainer, hsh, hc]

/-- C7 counterexample: with exit code 0 but a streamed chunk containing the
text `No such file or directory` (for example, legitimate file content), the
read rejects — so it does not resolve exactly when the command exits 0, and
text inspection is not merely a fallback to structured codes. -/
theorem claim_C7_counterexample :
    readFileFromContainer "a.txt" 0 ["No such file or directory"] =
      .error "File not found: a.txt" := rfl

/-- C7 (amended): the read applies the write-side path repair, concatenates
the streamed chunks, strips ANSI sequences, cleans, and resolves with that
text exactly when the exit code is 0 *and* no chunk carries one of the two
failure phrases — the phrase inspection runs unconditionally alongside the
exit code, not only as a fallback. -/
theorem claim_C7 :
    ∀ (path : String) (exitCode : Int) (chunks : List String),
      ((readFileFromContainer path exitCode chunks).isOk = true ↔
        (exitCode = 0 ∧ ∀ ch ∈ chunks, readChunkIsError ch = false)) ∧
      ((exitCode = 0 ∧ ∀ ch ∈ chunks, readChunkIsError ch = false) →
        readFileFromContainer path exitCode chunks =
          .ok (ultraCleanContent (stripAnsi (strJoin chunks)) path)) := by
  intro path ec chunks
  have hok : (ec = 0 ∧ ∀ ch ∈ chunks, readChunkIsError ch = false) →
      readFileFromContainer path ec chunks =
        .ok (ultraCleanContent (stripAnsi (strJoin chunks)) path) := by
    rintro ⟨h1, h2⟩
    have hf : readFold chunks = ("" ++ strJoin chunks, "") :=
      readFold_go_no_err h2 ("", "")
    rw [strEmpty_append] at hf
    simp only [readFileFromContainer, hf, h1]
    simp
  refine ⟨⟨?_, fun h => by rw [hok h]; rfl⟩, hok⟩
  intro h
  simp only [readFileFromContainer] at h
  split at h
  · next hcond =>
    simp only [Bool.and_eq_true, decide_eq_true_eq] at hcond
    obtain ⟨h1, h2⟩ := hcond
    have h2' : (List.foldl readFoldStep ("", "") chunks).2 = "" := by
      simpa [readFold] using h2
    exact ⟨h1, (readFold_go_err_empty ("", "") h2').2⟩
  · exact absurd h (by simp [Except.isOk, Except.toBool])

/-- C7 witness: a two-chunk successful read concatenates in order. -/
theorem claim_C7_witness :
    readFileFromContainer "m.txt" 0 ["hel", "lo"] = .ok "hello" := by
  have h := (claim_C7 "m.txt" 0 ["hel", "lo"]).2 ⟨rfl, by decide⟩
  rw [h]
  rfl

end IDE
